import Mathlib

/-!
Shallow embedding of the block-storage layer of `btcdb` (file `ldb/block.go`),
together with proofs of the specified properties.

Conventions of the embedding:
* A byte is a `Nat` (the functions that produce bytes always produce values
  `< 256`; the decoding functions reduce each byte `% 256`, as reading a Go
  `byte` does).
* A Go `int64` is an `Int`; wherever Go arithmetic may overflow we reduce with
  `wrap64`, which maps an integer to its two's-complement 64-bit value.
* The underlying LevelDB key-value store is a function `Key → Option ByteSeq`;
  `Get` failing with "not found" is `none`.  The pending write batch is the
  list of `Put` calls issued so far, in order.
* Go slice indexing `b[0:32]` panics when the slice is too short; such a panic
  is modelled as the distinguished error `DbErr.outOfBounds`.
* The per-database mutex is elided: every operation is already a function of
  the whole state, so lock acquisition/release has no observable content here.
-/

/-- A sequence of bytes (each entry is intended to be `< 256`). -/
abbrev ByteSeq := List Nat

/-- A 32-byte block hash (`btcwire.ShaHash`). -/
def ShaHash : Type := { l : ByteSeq // l.length = 32 }

instance : DecidableEq ShaHash := fun a b =>
  decidable_of_iff (a.val = b.val) Subtype.ext_iff.symm

/-- The all-zero hash, `btcwire.ShaHash{}`. -/
def zeroHash : ShaHash := ⟨List.replicate 32 0, List.length_replicate 32 0⟩

/-- Keys of the underlying key-value store.  The two namespaces (hash-keyed
and height-keyed) are represented by the two constructors; this models the
repository's key codec (`shaBlkToKey` / `int64ToKey`, defined outside
`block.go`), whose encodings never collide. -/
inductive Key where
  | shaKey (s : ShaHash)
  | heightKey (h : Int)
deriving DecidableEq

/-- `shaBlkToKey` - key of the hash-index entry for a block hash. -/
def shaBlkToKey (sha : ShaHash) : Key := Key.shaKey sha

/-- `int64ToKey` - key of the height-index entry for a block height. -/
def int64ToKey (h : Int) : Key := Key.heightKey h

/-- The failure modes of the embedded operations.
* `notFound` — the underlying `Get` found no entry (leveldb's not-found error);
* `corrupt` — the `"Db Corrupt 0"` error of `getBlkLoc`;
* `writeFail` — the `"Write Fail"` error of `setBlk` (never produced: writing
  to a `bytes.Buffer` cannot fail);
* `outOfBounds` — a Go slice-bounds panic (`b[0:32]` on a short slice);
* `prevShaMissing` — modelled from the spec: the distinct `BrokenChain` error
  (`btcdb.PrevShaMissing`, declared outside `block.go` and referenced there
  only in a commented-out line; no code path in `block.go` returns it). -/
inductive DbErr where
  | notFound
  | corrupt
  | writeFail
  | outOfBounds
  | prevShaMissing
deriving DecidableEq

/-- The state of an open `LevelDb` handle: the committed key-value store, the
pending write batch (`lBatch()`), and the in-memory tip cache fields. -/
structure LevelDb where
  store : Key → Option ByteSeq
  batch : List (Key × ByteSeq)
  lastBlkShaCached : Bool
  lastBlkSha : ShaHash
  lastBlkIdx : Int
  nextBlock : Int

/-- Modelled from the spec: the initial state of a freshly created, empty
store (no entries, empty batch, tip cache at its `-1` / zero-hash sentinel,
next-assignable height counter at its initial value `0`).  The code that
establishes this state (`openDB` and friends) lives outside `block.go`. -/
def LevelDb.empty : LevelDb :=
  { store := fun _ => none
    batch := []
    lastBlkShaCached := false
    lastBlkSha := zeroHash
    lastBlkIdx := -1
    nextBlock := 0 }

/-! ### Little-endian 64-bit integer codec (`binary.Read` / `binary.Write`) -/

/-- `natToLE k n` - the `k` little-endian base-256 digits of `n`. -/
def natToLE : Nat → Nat → ByteSeq
  | 0, _ => []
  | k + 1, n => n % 256 :: natToLE k (n / 256)

/-- Read a little-endian byte sequence back as a natural number. -/
def leToNat : ByteSeq → Nat
  | [] => 0
  | b :: bs => b % 256 + 256 * leToNat bs

/-- Reinterpret a value `< 2^64` as a signed two's-complement `int64`. -/
def int64OfNat (n : Nat) : Int :=
  if n < 2 ^ 63 then (n : Int) else (n : Int) - 2 ^ 64

/-- Reduce an integer to its two's-complement 64-bit value (the result of any
Go `int64` arithmetic). -/
def wrap64 (i : Int) : Int := (i + 2 ^ 63) % 2 ^ 64 - 2 ^ 63

/-- `binary.Write(buf, binary.LittleEndian, int64)` - the 8 little-endian
bytes of the integer. -/
def encodeInt64LE (i : Int) : ByteSeq := natToLE 8 (i % 2 ^ 64).toNat

/-- `binary.Read(bytes.NewBuffer(data), binary.LittleEndian, &int64)` -
succeeds, consuming the first 8 bytes, iff at least 8 bytes are available. -/
def decodeInt64LE (data : ByteSeq) : Option Int :=
  if 8 ≤ data.length then some (int64OfNat (leToNat (data.take 8))) else none

/-! ### The operations of `ldb/block.go` -/

/-- `getBlkLoc` - look up the hash-index entry of `sha` and decode the stored
height.  A missing entry propagates the `Get` error (`notFound`); an entry
whose payload `binary.Read` cannot decode yields the `"Db Corrupt 0"` error. -/
def getBlkLoc (db : LevelDb) (sha : ShaHash) : Except DbErr Int :=
  match db.store (shaBlkToKey sha) with
  | none => Except.error DbErr.notFound
  | some data =>
    match decodeInt64LE data with
    | none => Except.error DbErr.corrupt
    | some blkHeight => Except.ok blkHeight

/-- `getBlkByHeight` - look up the height-index entry of `blkHeight` and split
its payload into the leading 32-byte hash (`blkVal[0:32]`) and the remaining
record bytes (`blkVal[32:]`).  A payload shorter than 32 bytes makes the Go
slice expressions panic, modelled as `outOfBounds`. -/
def getBlkByHeight (db : LevelDb) (blkHeight : Int) :
    Except DbErr (ShaHash × ByteSeq) :=
  match db.store (int64ToKey blkHeight) with
  | none => Except.error DbErr.notFound
  | some blkVal =>
    if h32 : 32 ≤ blkVal.length then
      Except.ok (⟨blkVal.take 32, by simp [List.length_take]; omega⟩,
                 blkVal.drop 32)
    else Except.error DbErr.outOfBounds

/-- `getBlk` - height and record bytes of the block with hash `sha`. -/
def getBlk (db : LevelDb) (sha : ShaHash) : Except DbErr (Int × ByteSeq) :=
  match getBlkLoc db sha with
  | Except.error e => Except.error e
  | Except.ok blkHeight =>
    match getBlkByHeight db blkHeight with
    | Except.error e => Except.error e
    | Except.ok (_, buf) => Except.ok (blkHeight, buf)

/-- `fetchSha` - the record bytes and height of the block with hash `sha`. -/
def fetchSha (db : LevelDb) (sha : ShaHash) : Except DbErr (ByteSeq × Int) :=
  match getBlk db sha with
  | Except.error e => Except.error e
  | Except.ok (blkHeight, buf) => Except.ok (buf, blkHeight)

/-- `setBlk` - stage the two writes of one block into the pending batch: the
hash-index entry (`sha → binary.Write(blkHeight)`) and the height-index entry
(`blkHeight → sha.Bytes() ++ buf`).  `binary.Write` into a `bytes.Buffer`
cannot fail, so the function is total. -/
def setBlk (db : LevelDb) (sha : ShaHash) (blkHeight : Int) (buf : ByteSeq) :
    LevelDb :=
  { db with
    batch := db.batch ++
      [(shaBlkToKey sha, encodeInt64LE blkHeight),
       (int64ToKey blkHeight, sha.val ++ buf)] }

/-- The successful tail of `insertBlockData`: stage the block via `setBlk`,
then update the tip cache and the next-assignable height. -/
def insertTail (db : LevelDb) (sha : ShaHash) (buf : ByteSeq)
    (blkHeight : Int) : Except DbErr Int × LevelDb :=
  let db1 := setBlk db sha blkHeight buf
  (Except.ok blkHeight,
   { db1 with
     lastBlkShaCached := true
     lastBlkSha := sha
     lastBlkIdx := blkHeight
     nextBlock := wrap64 (blkHeight + 1) })

/-- `insertBlockData` - look up the declared predecessor; when the lookup
fails, fall back to the genesis case (`oBlkHeight = -1`) only if
`db.nextBlock == 0`, otherwise return the lookup's error unchanged with no
side effects.  On success assign height `oBlkHeight + 1` (Go `int64`
addition), stage both writes and update the tip cache. -/
def insertBlockData (db : LevelDb) (sha prevSha : ShaHash) (buf : ByteSeq) :
    Except DbErr Int × LevelDb :=
  match getBlkLoc db prevSha with
  | Except.error e =>
    if db.nextBlock ≠ 0 then (Except.error e, db)
    else insertTail db sha buf (wrap64 ((-1) + 1))
  | Except.ok oBlkHeight => insertTail db sha buf (wrap64 (oBlkHeight + 1))

/-- `blkExistsSha` - `true` iff `getBlkLoc` succeeds; every error is collapsed
to `false`. -/
def blkExistsSha (db : LevelDb) (sha : ShaHash) : Bool :=
  match getBlkLoc db sha with
  | Except.error _ => false
  | Except.ok _ => true

/-- `ExistsSha` - the public existence check (locking elided). -/
def ExistsSha (db : LevelDb) (sha : ShaHash) : Bool := blkExistsSha db sha

/-- `fetchBlockShaByHeight` - the hash stored in the height-index entry of
`height` (`blkVal[0:32]`, a panic — `outOfBounds` — on a short payload). -/
def fetchBlockShaByHeight (db : LevelDb) (height : Int) :
    Except DbErr ShaHash :=
  match db.store (int64ToKey height) with
  | none => Except.error DbErr.notFound
  | some blkVal =>
    if h32 : 32 ≤ blkVal.length then
      Except.ok ⟨blkVal.take 32, by simp [List.length_take]; omega⟩
    else Except.error DbErr.outOfBounds

/-- `FetchBlockShaByHeight` - the public wrapper (locking elided). -/
def FetchBlockShaByHeight (db : LevelDb) (height : Int) :
    Except DbErr ShaHash :=
  fetchBlockShaByHeight db height

/-- Modelled from the spec: the distinguished open-end sentinel
(`btcdb.AllShas`, declared outside `block.go` as the maximal `int64`). -/
def AllShas : Int := 2 ^ 63 - 1

/-- The loop body of `FetchHeightRange`, with the number of remaining
iterations (`endidx - height`) made explicit as fuel: collect the leading
32 bytes of each consecutive height-index entry, stop silently at the first
missing entry, panic (`outOfBounds`) on a short payload. -/
def rangeLoop (db : LevelDb) : Nat → Int → Except DbErr (List ShaHash)
  | 0, _ => Except.ok []
  | n + 1, height =>
    match db.store (int64ToKey height) with
    | none => Except.ok []
    | some blkVal =>
      if h32 : 32 ≤ blkVal.length then
        match rangeLoop db n (height + 1) with
        | Except.error e => Except.error e
        | Except.ok rest =>
          Except.ok (⟨blkVal.take 32, by simp [List.length_take]; omega⟩ :: rest)
      else Except.error DbErr.outOfBounds

/-- `FetchHeightRange` - hashes of the consecutive heights from `startHeight`
(inclusive) up to `endHeight` (exclusive); `AllShas` as the end requests
`startHeight + 500` (Go `int64` addition).  Before the loop the code
allocates `make([]btcwire.ShaHash, 0, endidx-startHeight)`; when that `int64`
capacity is negative (`endHeight < startHeight`, or a wrapped difference) the
allocation panics at runtime, modelled as `outOfBounds`.  When the capacity
is non-negative the loop runs `max 0 (endidx - startHeight)` times. -/
def FetchHeightRange (db : LevelDb) (startHeight endHeight : Int) :
    Except DbErr (List ShaHash) :=
  let endidx : Int :=
    if endHeight = AllShas then wrap64 (startHeight + 500) else endHeight
  if wrap64 (endidx - startHeight) < 0 then Except.error DbErr.outOfBounds
  else rangeLoop db (endidx - startHeight).toNat startHeight

/-- `NewestSha` - the cached tip hash and height, or the zero-hash / `-1`
sentinel when the tip cache holds `-1`; never an error. -/
def NewestSha (db : LevelDb) : Except DbErr (ShaHash × Int) :=
  if db.lastBlkIdx = -1 then Except.ok (zeroHash, -1)
  else Except.ok (db.lastBlkSha, db.lastBlkIdx)

/-! ### The batch commit (external collaborator) -/

/-- Apply a batch of `Put` calls to a store, in order (a later `Put` to the
same key wins). -/
def applyBatch (b : List (Key × ByteSeq)) (store : Key → Option ByteSeq) :
    Key → Option ByteSeq :=
  match b with
  | [] => store
  | (k, v) :: rest =>
    applyBatch rest (fun k' => if k' = k then some v else store k')

/-- Modelled from the spec: the externally triggered atomic commit of the
pending batch (spec §4.2/§6) — every staged `Put` is applied to the store as
one unit and the batch is reset.  The code that triggers it
(`processBatches`) lives outside `block.go`. -/
def commitBatch (db : LevelDb) : LevelDb :=
  { db with store := applyBatch db.batch db.store, batch := [] }

/-! ### Codec lemmas -/

theorem natToLE_length (k n : Nat) : (natToLE k n).length = k := by
  induction k generalizing n with
  | zero => rfl
  | succ k ih => simp [natToLE, ih]

theorem leToNat_natToLE (k n : Nat) (h : n < 256 ^ k) :
    leToNat (natToLE k n) = n := by
  induction k generalizing n with
  | zero => simp [natToLE, leToNat]; omega
  | succ k ih =>
    have h2 : n / 256 < 256 ^ k := by
      rw [Nat.div_lt_iff_lt_mul (by norm_num)]
      calc n < 256 ^ (k + 1) := h
        _ = 256 ^ k * 256 := by ring
    simp only [natToLE, leToNat, ih (n / 256) h2]
    have : n % 256 % 256 = n % 256 := Nat.mod_eq_of_lt (Nat.mod_lt _ (by norm_num))
    omega

theorem leToNat_lt (bs : ByteSeq) : leToNat bs < 256 ^ bs.length := by
  induction bs with
  | nil => simp [leToNat]
  | cons b rest ih =>
    simp only [leToNat, List.length_cons, pow_succ]
    have hb : b % 256 < 256 := Nat.mod_lt _ (by norm_num)
    calc b % 256 + 256 * leToNat rest < 256 + 256 * leToNat rest := by omega
      _ ≤ 256 * (leToNat rest + 1) := by ring_nf; omega
      _ ≤ 256 * 256 ^ rest.length := by
          have := ih; exact Nat.mul_le_mul_left 256 (by omega)
      _ = 256 ^ rest.length * 256 := by ring

theorem encodeInt64LE_length (i : Int) : (encodeInt64LE i).length = 8 :=
  natToLE_length 8 _

theorem emod_toNat_lt (i : Int) : (i % 2 ^ 64).toNat < 2 ^ 64 := by
  have h1 : 0 ≤ i % 2 ^ 64 := Int.emod_nonneg i (by norm_num)
  have h2 : i % 2 ^ 64 < 2 ^ 64 := Int.emod_lt_of_pos i (by norm_num)
  omega

theorem decode_encode (i : Int) (h1 : -2 ^ 63 ≤ i) (h2 : i < 2 ^ 63) :
    decodeInt64LE (encodeInt64LE i) = some i := by
  have hlen : (encodeInt64LE i).length = 8 := encodeInt64LE_length i
  have hlt : (i % 2 ^ 64).toNat < 2 ^ 64 := emod_toNat_lt i
  have htake : (encodeInt64LE i).take 8 = encodeInt64LE i :=
    List.take_of_length_le (by omega)
  have hto : leToNat (encodeInt64LE i) = (i % 2 ^ 64).toNat := by
    have : (256 : Nat) ^ 8 = 2 ^ 64 := by norm_num
    exact leToNat_natToLE 8 _ (by omega)
  have hmod : ((i % 2 ^ 64).toNat : Int) = i % 2 ^ 64 := by
    have : 0 ≤ i % 2 ^ 64 := Int.emod_nonneg i (by norm_num)
    omega
  simp only [decodeInt64LE, hlen, htake, hto, le_refl, if_pos]
  congr 1
  unfold int64OfNat
  split
  · rename_i hcase
    rw [hmod]
    omega
  · rename_i hcase
    have hcase' : ¬ ((i % 2 ^ 64 : Int) < 2 ^ 63) := by
      intro hc
      exact hcase (by omega)
    rw [hmod]
    omega

theorem int64OfNat_range (n : Nat) (h : n < 2 ^ 64) :
    -2 ^ 63 ≤ int64OfNat n ∧ int64OfNat n < 2 ^ 63 := by
  unfold int64OfNat
  split <;> omega

theorem decodeInt64LE_range (data : ByteSeq) (i : Int)
    (h : decodeInt64LE data = some i) : -2 ^ 63 ≤ i ∧ i < 2 ^ 63 := by
  unfold decodeInt64LE at h
  split at h
  · rename_i hlen
    have hbound : leToNat (data.take 8) < 256 ^ (data.take 8).length :=
      leToNat_lt _
    have hlen8 : (data.take 8).length = 8 := by
      simp [List.length_take]; omega
    rw [hlen8] at hbound
    have : (256 : Nat) ^ 8 = 2 ^ 64 := by norm_num
    have := int64OfNat_range (leToNat (data.take 8)) (by omega)
    simp only [Option.some_inj] at h
    omega
  · exact absurd h (by simp)

theorem wrap64_range (i : Int) : -2 ^ 63 ≤ wrap64 i ∧ wrap64 i < 2 ^ 63 := by
  unfold wrap64
  have h1 : 0 ≤ (i + 2 ^ 63) % 2 ^ 64 := Int.emod_nonneg _ (by norm_num)
  have h2 : (i + 2 ^ 63) % 2 ^ 64 < 2 ^ 64 := Int.emod_lt_of_pos _ (by norm_num)
  omega

theorem wrap64_eq_self (i : Int) (h1 : -2 ^ 63 ≤ i) (h2 : i < 2 ^ 63) :
    wrap64 i = i := by
  unfold wrap64
  omega

/-! ### Batch lemmas and concrete fixtures -/

theorem applyBatch_append (b1 b2 : List (Key × ByteSeq))
    (store : Key → Option ByteSeq) :
    applyBatch (b1 ++ b2) store = applyBatch b2 (applyBatch b1 store) := by
  induction b1 generalizing store with
  | nil => rfl
  | cons p rest ih => cases p; simp [applyBatch, ih]

theorem applyBatch_preserves_presence (b : List (Key × ByteSeq))
    (store : Key → Option ByteSeq) (k : Key) (v : ByteSeq)
    (h : store k = some v) : ∃ v', applyBatch b store k = some v' := by
  induction b generalizing store v with
  | nil => exact ⟨v, h⟩
  | cons p rest ih =>
    cases p with
    | mk pk pv =>
      by_cases hk : k = pk
      · exact ih _ pv (by simp [hk])
      · exact ih _ v (by simp [hk, h])

/-- A concrete 32-byte hash whose first byte is `b`. -/
def mkHash (b : Nat) : ShaHash := ⟨b :: List.replicate 31 0, by simp⟩

/-- A one-block store: the genesis block `mkHash 1` with record `[10, 11]`,
inserted into the empty store and committed. -/
def dbG : LevelDb :=
  commitBatch (insertBlockData LevelDb.empty (mkHash 1) zeroHash [10, 11]).2

/-- The shape of every successful `insertBlockData`: the returned height is an
`int64` value, exactly the two writes of `setBlk` are appended to the pending
batch, the committed store is untouched, and the tip cache fields are set to
the inserted block. -/
theorem insert_success_shape (db : LevelDb) (sha prevSha : ShaHash)
    (buf : ByteSeq) (h : Int) (db' : LevelDb)
    (hins : insertBlockData db sha prevSha buf = (Except.ok h, db')) :
    -2 ^ 63 ≤ h ∧ h < 2 ^ 63 ∧
    db'.store = db.store ∧
    db'.batch = db.batch ++
      [(shaBlkToKey sha, encodeInt64LE h), (int64ToKey h, sha.val ++ buf)] ∧
    db'.lastBlkShaCached = true ∧ db'.lastBlkSha = sha ∧
    db'.lastBlkIdx = h ∧ db'.nextBlock = wrap64 (h + 1) := by
  unfold insertBlockData at hins
  cases hloc : getBlkLoc db prevSha with
  | error e =>
    rw [hloc] at hins
    dsimp only at hins
    by_cases hnb : db.nextBlock ≠ 0
    · rw [if_pos hnb] at hins
      exact absurd (congrArg Prod.fst hins) (by simp)
    · rw [if_neg hnb] at hins
      simp only [insertTail, setBlk, Prod.mk.injEq] at hins
      obtain ⟨h1, h2⟩ := hins
      simp only [Except.ok.injEq] at h1
      subst h1
      subst h2
      exact ⟨(wrap64_range _).1, (wrap64_range _).2, rfl, rfl, rfl, rfl, rfl, rfl⟩
  | ok o =>
    rw [hloc] at hins
    dsimp only at hins
    simp only [insertTail, setBlk, Prod.mk.injEq] at hins
    obtain ⟨h1, h2⟩ := hins
    simp only [Except.ok.injEq] at h1
    subst h1
    subst h2
    exact ⟨(wrap64_range _).1, (wrap64_range _).2, rfl, rfl, rfl, rfl, rfl, rfl⟩

/-! ### Claim theorems -/

/-- C1 (counterexample): on the non-empty one-block store `dbG`, inserting a
block whose declared predecessor `mkHash 9` has no hash-index entry fails, but
the returned error is the predecessor lookup's `notFound`, not the distinct
`BrokenChain` error (`prevShaMissing`) of the spec's taxonomy. -/
theorem insertBlockData_unknown_prev_error_is_notFound :
    (insertBlockData dbG (mkHash 2) (mkHash 9) [12, 13]).1 =
      Except.error DbErr.notFound ∧
    DbErr.notFound ≠ DbErr.prevShaMissing := by
  exact ⟨rfl, by decide⟩

/-- C1 (amended): an insert whose declared predecessor hash has no hash-index
entry succeeds — returning height 0 — iff the next-assignable height counter
is at its initial value 0; on a non-empty chain it fails, returning the
propagated `notFound` of the predecessor lookup, with no state change. -/
theorem insertBlockData_unknown_prev_genesis_iff_empty (db : LevelDb)
    (sha prevSha : ShaHash) (buf : ByteSeq)
    (hnone : db.store (shaBlkToKey prevSha) = none) :
    ((insertBlockData db sha prevSha buf).1 = Except.ok 0 ↔ db.nextBlock = 0) ∧
    (db.nextBlock ≠ 0 →
      insertBlockData db sha prevSha buf = (Except.error DbErr.notFound, db)) := by
  have hloc : getBlkLoc db prevSha = Except.error DbErr.notFound := by
    unfold getBlkLoc
    rw [hnone]
  constructor
  · constructor
    · intro hok
      by_contra hnb
      unfold insertBlockData at hok
      rw [hloc] at hok
      dsimp only at hok
      rw [if_pos hnb] at hok
      exact absurd hok (by simp)
    · intro hnb
      unfold insertBlockData
      rw [hloc]
      dsimp only
      rw [if_neg (by simp [hnb])]
      have h0 : wrap64 0 = 0 := by unfold wrap64; norm_num
      simp [insertTail, h0]
  · intro hnb
    unfold insertBlockData
    rw [hloc]
    dsimp only
    rw [if_pos hnb]

/-- C1 (witness): the amended statement instantiated on the one-block store
`dbG` and an absent predecessor hash. -/
theorem insertBlockData_unknown_prev_genesis_iff_empty_witness :
    ((insertBlockData dbG (mkHash 2) (mkHash 9) [12, 13]).1 = Except.ok 0 ↔
      dbG.nextBlock = 0) ∧
    (dbG.nextBlock ≠ 0 →
      insertBlockData dbG (mkHash 2) (mkHash 9) [12, 13] =
        (Except.error DbErr.notFound, dbG)) :=
  insertBlockData_unknown_prev_genesis_iff_empty dbG (mkHash 2) (mkHash 9)
    [12, 13] rfl

/-- C2: an insert that fails because its declared predecessor hash is absent
while the chain is non-empty returns before anything is staged: the result
state is the input state — pending batch, committed store (both index
namespaces), tip cache and next-assignable height all unchanged. -/
theorem insertBlockData_brokenChain_no_side_effects (db : LevelDb)
    (sha prevSha : ShaHash) (buf : ByteSeq)
    (hnone : db.store (shaBlkToKey prevSha) = none)
    (hnb : db.nextBlock ≠ 0) :
    insertBlockData db sha prevSha buf = (Except.error DbErr.notFound, db) := by
  unfold insertBlockData
  have hloc : getBlkLoc db prevSha = Except.error DbErr.notFound := by
    unfold getBlkLoc
    rw [hnone]
  rw [hloc]
  dsimp only
  rw [if_pos hnb]

/-- C2 (witness): the no-side-effect statement instantiated on the one-block
store `dbG` and an absent predecessor hash. -/
theorem insertBlockData_brokenChain_no_side_effects_witness :
    insertBlockData dbG (mkHash 2) (mkHash 9) [12, 13] =
      (Except.error DbErr.notFound, dbG) :=
  insertBlockData_brokenChain_no_side_effects dbG (mkHash 2) (mkHash 9)
    [12, 13] rfl (by decide)

/-- C6: `getBlkLoc` (the `height_by_hash` lookup) fails with the `Corruption`
error exactly when the hash-index entry exists but its payload is too short
for `binary.Read` to decode the fixed-width 8-byte little-endian integer,
while an entirely absent key fails with `notFound`; the two errors are
distinct values. -/
theorem getBlkLoc_corrupt_vs_notFound (db : LevelDb) (sha : ShaHash) :
    (getBlkLoc db sha = Except.error DbErr.corrupt ↔
      ∃ data, db.store (shaBlkToKey sha) = some data ∧ data.length < 8) ∧
    (getBlkLoc db sha = Except.error DbErr.notFound ↔
      db.store (shaBlkToKey sha) = none) ∧
    DbErr.corrupt ≠ DbErr.notFound := by
  refine ⟨?_, ?_, by decide⟩
  · unfold getBlkLoc decodeInt64LE
    cases hst : db.store (shaBlkToKey sha) with
    | none => simp
    | some data =>
      dsimp only
      by_cases hlen : 8 ≤ data.length
      · rw [if_pos hlen]
        dsimp only
        simp
        omega
      · rw [if_neg hlen]
        dsimp only
        simp
        omega
  · unfold getBlkLoc
    cases hst : db.store (shaBlkToKey sha) with
    | none => simp
    | some data =>
      dsimp only
      cases decodeInt64LE data <;> simp

/-- C10: the public existence check returns `true` exactly when the hash-index
lookup succeeds and `false` exactly when it fails — whatever the error — so no
failure is ever surfaced to the caller. -/
theorem existsSha_collapses_errors (db : LevelDb) (sha : ShaHash) :
    (ExistsSha db sha = true ↔ ∃ h, getBlkLoc db sha = Except.ok h) ∧
    (ExistsSha db sha = false ↔ ∃ e, getBlkLoc db sha = Except.error e) := by
  unfold ExistsSha blkExistsSha
  cases hloc : getBlkLoc db sha <;> simp

theorem getBlkLoc_ok (db : LevelDb) (sha : ShaHash) (o : Int)
    (h : getBlkLoc db sha = Except.ok o) :
    ∃ data, db.store (shaBlkToKey sha) = some data ∧
      decodeInt64LE data = some o := by
  unfold getBlkLoc at h
  cases hst : db.store (shaBlkToKey sha) with
  | none => rw [hst] at h; exact absurd h (by simp)
  | some data =>
    rw [hst] at h
    dsimp only at h
    cases hdec : decodeInt64LE data with
    | none => rw [hdec] at h; exact absurd h (by simp)
    | some o' =>
      rw [hdec] at h
      dsimp only at h
      simp only [Except.ok.injEq] at h
      exact ⟨data, rfl, by rw [hdec, h]⟩

/-- C3: after any successful `insertBlockData` returning height `h`, once the
pending batch is committed, fetching by the inserted hash returns exactly the
inserted record bytes together with `h`. -/
theorem insert_fetchSha_roundtrip (db : LevelDb) (sha prevSha : ShaHash)
    (buf : ByteSeq) (h : Int) (db' : LevelDb)
    (hins : insertBlockData db sha prevSha buf = (Except.ok h, db')) :
    fetchSha (commitBatch db') sha = Except.ok (buf, h) := by
  obtain ⟨hlo, hhi, hstore, hbatch, -, -, -, -⟩ :=
    insert_success_shape db sha prevSha buf h db' hins
  have hsha : (commitBatch db').store (shaBlkToKey sha) =
      some (encodeInt64LE h) := by
    show applyBatch db'.batch db'.store (shaBlkToKey sha) = _
    rw [hbatch, hstore, applyBatch_append]
    simp [applyBatch, shaBlkToKey, int64ToKey]
  have hheight : (commitBatch db').store (int64ToKey h) =
      some (sha.val ++ buf) := by
    show applyBatch db'.batch db'.store (int64ToKey h) = _
    rw [hbatch, hstore, applyBatch_append]
    simp [applyBatch, shaBlkToKey, int64ToKey]
  have hdrop : (sha.val ++ buf).drop 32 = buf := by
    have hd := List.drop_left sha.val buf
    rwa [sha.2] at hd
  have hlen : 32 ≤ (sha.val ++ buf).length := by
    rw [List.length_append, sha.2]
    omega
  unfold fetchSha getBlk getBlkLoc
  rw [hsha]
  dsimp only
  rw [decode_encode h hlo hhi]
  dsimp only
  unfold getBlkByHeight
  rw [hheight]
  dsimp only
  rw [dif_pos hlen]
  dsimp only
  rw [hdrop]

/-- C3 (witness): the genesis insert into the empty store, committed, then
fetched back. -/
theorem insert_fetchSha_roundtrip_witness :
    fetchSha
      (commitBatch (insertBlockData LevelDb.empty (mkHash 1) zeroHash [10, 11]).2)
      (mkHash 1) = Except.ok ([10, 11], 0) :=
  insert_fetchSha_roundtrip LevelDb.empty (mkHash 1) zeroHash [10, 11] 0
    (insertBlockData LevelDb.empty (mkHash 1) zeroHash [10, 11]).2 rfl

/-- Well-formedness of the persisted hash-index namespace: every hash-index
payload is the encoding of a height that a previous insert assigned — a
natural number small enough that adding one cannot overflow.  Every store
reached from the empty store by successful inserts and commits satisfies
this. -/
def StoredHeightsWF (db : LevelDb) : Prop :=
  ∀ s data, db.store (shaBlkToKey s) = some data →
    ∃ k : Nat, (k : Int) < 2 ^ 63 - 1 ∧ data = encodeInt64LE k

theorem insert_success_height_nonneg (db : LevelDb) (sha prevSha : ShaHash)
    (buf : ByteSeq) (h : Int) (db' : LevelDb) (hwf : StoredHeightsWF db)
    (hins : insertBlockData db sha prevSha buf = (Except.ok h, db')) :
    0 ≤ h ∧ h < 2 ^ 63 := by
  unfold insertBlockData at hins
  cases hloc : getBlkLoc db prevSha with
  | error e =>
    rw [hloc] at hins
    dsimp only at hins
    by_cases hnb : db.nextBlock ≠ 0
    · rw [if_pos hnb] at hins
      exact absurd (congrArg Prod.fst hins) (by simp)
    · rw [if_neg hnb] at hins
      simp only [insertTail, setBlk, Prod.mk.injEq] at hins
      obtain ⟨h1, -⟩ := hins
      simp only [Except.ok.injEq] at h1
      have h0 : wrap64 (-1 + 1) = 0 := by unfold wrap64; norm_num
      omega
  | ok o =>
    rw [hloc] at hins
    dsimp only at hins
    simp only [insertTail, setBlk, Prod.mk.injEq] at hins
    obtain ⟨h1, -⟩ := hins
    simp only [Except.ok.injEq] at h1
    obtain ⟨data, hst, hdec⟩ := getBlkLoc_ok db prevSha o hloc
    obtain ⟨k, hk, rfl⟩ := hwf prevSha data hst
    rw [decode_encode (k : Int) (by omega) (by omega)] at hdec
    simp only [Option.some_inj] at hdec
    have hw : wrap64 (o + 1) = o + 1 := by
      apply wrap64_eq_self <;> omega
    omega

/-- C7: on the empty store `NewestSha` returns the zero hash and height `-1`
with no error; a successful insert (from any store whose hash-index payloads
are well-formed heights) leaves `NewestSha` returning exactly the inserted
hash and the height the insert returned; a failed insert leaves the whole
state — in particular the tip cache — untouched, and committing the batch
never touches the tip cache, so the cache is written only as the last step of
a successful insert. -/
theorem newestSha_tracks_tip :
    (NewestSha LevelDb.empty = Except.ok (zeroHash, -1)) ∧
    (∀ (db : LevelDb) (sha prevSha : ShaHash) (buf : ByteSeq) (h : Int)
        (db' : LevelDb), StoredHeightsWF db →
      insertBlockData db sha prevSha buf = (Except.ok h, db') →
      NewestSha db' = Except.ok (sha, h)) ∧
    (∀ (db : LevelDb) (sha prevSha : ShaHash) (buf : ByteSeq) (e : DbErr)
        (db' : LevelDb),
      insertBlockData db sha prevSha buf = (Except.error e, db') → db' = db) ∧
    (∀ db : LevelDb, (commitBatch db).lastBlkSha = db.lastBlkSha ∧
      (commitBatch db).lastBlkIdx = db.lastBlkIdx ∧
      (commitBatch db).nextBlock = db.nextBlock) := by
  refine ⟨rfl, ?_, ?_, fun db => ⟨rfl, rfl, rfl⟩⟩
  · intro db sha prevSha buf h db' hwf hins
    obtain ⟨hpos, -⟩ :=
      insert_success_height_nonneg db sha prevSha buf h db' hwf hins
    obtain ⟨-, -, -, -, -, hsha, hidx, -⟩ :=
      insert_success_shape db sha prevSha buf h db' hins
    unfold NewestSha
    rw [hidx, hsha, if_neg (by omega)]
  · intro db sha prevSha buf e db' hins
    unfold insertBlockData at hins
    cases hloc : getBlkLoc db prevSha with
    | error e' =>
      rw [hloc] at hins
      dsimp only at hins
      by_cases hnb : db.nextBlock ≠ 0
      · rw [if_pos hnb] at hins
        exact (congrArg Prod.snd hins).symm
      · rw [if_neg hnb] at hins
        simp only [insertTail, setBlk, Prod.mk.injEq] at hins
        exact absurd hins.1 (by simp)
    | ok o =>
      rw [hloc] at hins
      dsimp only at hins
      simp only [insertTail, setBlk, Prod.mk.injEq] at hins
      exact absurd hins.1 (by simp)

/-- C7 (witness): the tracking statement instantiated on the genesis insert
into the empty store. -/
theorem newestSha_tracks_tip_witness :
    NewestSha (insertBlockData LevelDb.empty (mkHash 1) zeroHash [10, 11]).2 =
      Except.ok (mkHash 1, 0) :=
  newestSha_tracks_tip.2.1 LevelDb.empty (mkHash 1) zeroHash [10, 11] 0
    (insertBlockData LevelDb.empty (mkHash 1) zeroHash [10, 11]).2
    (fun s data hd => absurd hd (by simp [LevelDb.empty])) rfl

/-- A store holding a malformed height-index entry: the payload under height 0
is only 3 bytes long, shorter than the fixed 32-byte hash region. -/
def dbShort : LevelDb :=
  { LevelDb.empty with
    store := fun k => if k = int64ToKey 0 then some [1, 2, 3] else none }

/-- C9 (counterexample): on a height-index payload shorter than 32 bytes,
`fetchBlockShaByHeight` does not return a hash or `notFound` — the extraction
`blkVal[0:32]` is out of bounds (a slice panic in the code), a failure mode
distinct from `notFound`. -/
theorem fetchBlockShaByHeight_short_payload_out_of_bounds :
    fetchBlockShaByHeight dbShort 0 = Except.error DbErr.outOfBounds ∧
    DbErr.outOfBounds ≠ DbErr.notFound :=
  ⟨rfl, by decide⟩

/-- C9 (amended): whenever the payload stored under a height key is at least
32 bytes long — as is every payload staged by an insert, which always has the
shape `hash ++ record` with a 32-byte hash — `fetchBlockShaByHeight` returns
the leading 32 bytes as the hash; an absent key yields `notFound`; but a
payload shorter than 32 bytes makes the fixed-prefix extraction go out of
bounds. -/
theorem fetchBlockShaByHeight_ok_or_notFound_on_wellformed :
    (∀ (db : LevelDb) (height : Int) (blkVal : ByteSeq),
      db.store (int64ToKey height) = some blkVal → 32 ≤ blkVal.length →
      ∃ s : ShaHash, fetchBlockShaByHeight db height = Except.ok s ∧
        s.val = blkVal.take 32) ∧
    (∀ (db : LevelDb) (height : Int),
      db.store (int64ToKey height) = none →
      fetchBlockShaByHeight db height = Except.error DbErr.notFound) ∧
    (∀ (db : LevelDb) (sha : ShaHash) (blkHeight : Int) (buf : ByteSeq),
      (setBlk db sha blkHeight buf).batch = db.batch ++
        [(shaBlkToKey sha, encodeInt64LE blkHeight),
         (int64ToKey blkHeight, sha.val ++ buf)] ∧
      32 ≤ (sha.val ++ buf).length) := by
  refine ⟨?_, ?_, ?_⟩
  · intro db height blkVal hst hlen
    unfold fetchBlockShaByHeight
    rw [hst]
    dsimp only
    rw [dif_pos hlen]
    exact ⟨_, rfl, rfl⟩
  · intro db height hst
    unfold fetchBlockShaByHeight
    rw [hst]
  · intro db sha blkHeight buf
    refine ⟨rfl, ?_⟩
    rw [List.length_append, sha.2]
    omega

/-- C9 (witness): the amended statement instantiated on the committed
one-block store `dbG` at height 0. -/
theorem fetchBlockShaByHeight_wellformed_witness :
    ∃ s : ShaHash, fetchBlockShaByHeight dbG 0 = Except.ok s ∧
      s.val = ((mkHash 1).val ++ [10, 11]).take 32 :=
  fetchBlockShaByHeight_ok_or_notFound_on_wellformed.1 dbG 0
    ((mkHash 1).val ++ [10, 11]) rfl (by simp [mkHash])


/-! ### The abstract chain and the pairing invariant -/

/-- Index of the first block with hash `s` in an abstract chain. -/
def hashIdx (s : ShaHash) : List (ShaHash × ByteSeq) → Option Nat
  | [] => none
  | p :: rest => if p.1 = s then some 0 else (hashIdx s rest).map (· + 1)

/-- The committed store representing an abstract chain: block `i` of the
chain occupies height `i`, recorded in both index namespaces. -/
def chainStore (ch : List (ShaHash × ByteSeq)) : Key → Option ByteSeq :=
  fun k =>
    match k with
    | Key.shaKey s =>
      match hashIdx s ch with
      | some i => some (encodeInt64LE (i : Int))
      | none => none
    | Key.heightKey h =>
      if 0 ≤ h then
        match (ch[h.toNat]?) with
        | some p => some (p.1.val ++ p.2)
        | none => none
      else none

/-- `db` is the committed image of the abstract chain `ch`: no pending
writes, store and next-assignable height as the chain dictates, all chain
hashes distinct, and the chain short enough that the next height fits in an
`int64`. -/
def Abs (db : LevelDb) (ch : List (ShaHash × ByteSeq)) : Prop :=
  db.store = chainStore ch ∧ db.batch = [] ∧
  db.nextBlock = (ch.length : Int) ∧
  (ch.map Prod.fst).Nodup ∧ (ch.length : Int) + 1 < 2 ^ 63

/-- The atomic-pairing invariant (spec invariant 1): every hash-index entry
decodes to a height whose height-index entry carries that very hash, and
every height-index entry's leading 32 bytes are a hash whose hash-index entry
records that very height. -/
def Paired (db : LevelDb) : Prop :=
  (∀ (s : ShaHash) (data : ByteSeq), db.store (shaBlkToKey s) = some data →
    ∃ h : Int, decodeInt64LE data = some h ∧
      ∃ rec, db.store (int64ToKey h) = some (s.val ++ rec)) ∧
  (∀ (h : Int) (v : ByteSeq), db.store (int64ToKey h) = some v →
    ∃ (s : ShaHash) (rec : ByteSeq), v = s.val ++ rec ∧
      db.store (shaBlkToKey s) = some (encodeInt64LE h))

theorem hashIdx_lt (s : ShaHash) (ch : List (ShaHash × ByteSeq)) (i : Nat)
    (h : hashIdx s ch = some i) : i < ch.length := by
  induction ch generalizing i with
  | nil => exact absurd h (by simp [hashIdx])
  | cons p rest ih =>
    unfold hashIdx at h
    by_cases hp : p.1 = s
    · rw [if_pos hp] at h
      simp only [Option.some_inj] at h
      simp
      omega
    · rw [if_neg hp] at h
      cases hr : hashIdx s rest with
      | none => rw [hr] at h; exact absurd h (by simp)
      | some j =>
        rw [hr] at h
        simp only [Option.map_some', Option.some_inj] at h
        have := ih j hr
        simp
        omega

theorem hashIdx_getElem (s : ShaHash) (ch : List (ShaHash × ByteSeq))
    (i : Nat) (h : hashIdx s ch = some i) :
    ∃ rec, (ch[i]?) = some (s, rec) := by
  induction ch generalizing i with
  | nil => exact absurd h (by simp [hashIdx])
  | cons p rest ih =>
    unfold hashIdx at h
    by_cases hp : p.1 = s
    · rw [if_pos hp] at h
      simp only [Option.some_inj] at h
      subst h
      refine ⟨p.2, ?_⟩
      simp [← hp]
    · rw [if_neg hp] at h
      cases hr : hashIdx s rest with
      | none => rw [hr] at h; exact absurd h (by simp)
      | some j =>
        rw [hr] at h
        simp only [Option.map_some', Option.some_inj] at h
        subst h
        obtain ⟨rec, hrec⟩ := ih j hr
        exact ⟨rec, by simpa using hrec⟩

theorem getElem_hashIdx (s : ShaHash) (ch : List (ShaHash × ByteSeq))
    (i : Nat) (rec : ByteSeq) (hnd : (ch.map Prod.fst).Nodup)
    (h : (ch[i]?) = some (s, rec)) : hashIdx s ch = some i := by
  induction ch generalizing i with
  | nil => exact absurd h (by simp)
  | cons p rest ih =>
    rw [List.map_cons, List.nodup_cons] at hnd
    cases i with
    | zero =>
      simp only [List.getElem?_cons_zero, Option.some_inj] at h
      unfold hashIdx
      rw [if_pos (by rw [h])]
    | succ j =>
      simp only [List.getElem?_cons_succ] at h
      have hmem : s ∈ rest.map Prod.fst := by
        have hm := List.getElem?_mem h
        exact List.mem_map_of_mem Prod.fst hm
      unfold hashIdx
      rw [if_neg (fun he => hnd.1 (by rw [he]; exact hmem)), ih j hnd.2 h]
      rfl

theorem hashIdx_none_iff (s : ShaHash) (ch : List (ShaHash × ByteSeq)) :
    hashIdx s ch = none ↔ s ∉ ch.map Prod.fst := by
  induction ch with
  | nil => simp [hashIdx]
  | cons p rest ih =>
    unfold hashIdx
    by_cases hp : p.1 = s
    · rw [if_pos hp]
      simp [hp]
    · rw [if_neg hp]
      constructor
      · intro h
        have hr : hashIdx s rest = none := by
          cases hq : hashIdx s rest with
          | none => rfl
          | some j => rw [hq] at h; exact absurd h (by simp)
        rw [List.map_cons, List.mem_cons]
        push_neg
        exact ⟨fun he => hp he.symm, ih.mp hr⟩
      · intro h
        rw [List.map_cons, List.mem_cons] at h
        push_neg at h
        rw [ih.mpr h.2]
        rfl

theorem hashIdx_append_some (s : ShaHash) (ch : List (ShaHash × ByteSeq))
    (x : ShaHash × ByteSeq) (i : Nat) (h : hashIdx s ch = some i) :
    hashIdx s (ch ++ [x]) = some i := by
  induction ch generalizing i with
  | nil => exact absurd h (by simp [hashIdx])
  | cons p rest ih =>
    unfold hashIdx at h ⊢
    dsimp only [List.cons_append]
    by_cases hp : p.1 = s
    · rw [if_pos hp] at h
      rw [if_pos hp]
      exact h
    · rw [if_neg hp] at h
      rw [if_neg hp]
      cases hr : hashIdx s rest with
      | none => rw [hr] at h; exact absurd h (by simp)
      | some j =>
        rw [hr] at h
        rw [ih j hr]
        exact h

theorem hashIdx_append_none (s : ShaHash) (ch : List (ShaHash × ByteSeq))
    (x : ShaHash × ByteSeq) (h : hashIdx s ch = none) :
    hashIdx s (ch ++ [x]) =
      if x.1 = s then some ch.length else none := by
  induction ch with
  | nil => simp [hashIdx]
  | cons p rest ih =>
    unfold hashIdx at h ⊢
    dsimp only [List.cons_append]
    by_cases hp : p.1 = s
    · rw [if_pos hp] at h; exact absurd h (by simp)
    · rw [if_neg hp] at h
      rw [if_neg hp]
      have hr : hashIdx s rest = none := by
        cases hq : hashIdx s rest with
        | none => rfl
        | some j => rw [hq] at h; exact absurd h (by simp)
      rw [ih hr]
      by_cases hx : x.1 = s <;> simp [hx]

theorem getElem?_some_lt {α : Type} (l : List α) (n : Nat) (a : α)
    (h : (l[n]?) = some a) : n < l.length := by
  by_contra hc
  rw [List.getElem?_eq_none_iff.mpr (by omega)] at h
  exact absurd h (by simp)

theorem chainStore_snoc (ch : List (ShaHash × ByteSeq)) (sha : ShaHash)
    (buf : ByteSeq) (hfresh : sha ∉ ch.map Prod.fst) :
    chainStore (ch ++ [(sha, buf)]) =
      applyBatch
        [(shaBlkToKey sha, encodeInt64LE (ch.length : Int)),
         (int64ToKey (ch.length : Int), sha.val ++ buf)]
        (chainStore ch) := by
  funext k
  have hnone : hashIdx sha ch = none := (hashIdx_none_iff sha ch).mpr hfresh
  simp only [applyBatch, shaBlkToKey, int64ToKey]
  cases k with
  | shaKey s =>
    rw [if_neg (by simp)]
    by_cases hs : s = sha
    · subst hs
      rw [if_pos rfl]
      unfold chainStore
      dsimp only
      rw [hashIdx_append_none s ch (s, buf) hnone]
      simp
    · rw [if_neg (by simp [hs])]
      unfold chainStore
      dsimp only
      cases hr : hashIdx s ch with
      | some i => rw [hashIdx_append_some s ch (sha, buf) i hr]
      | none =>
        rw [hashIdx_append_none s ch _ hr,
            if_neg (fun he => hs (Eq.symm he))]
  | heightKey h =>
    by_cases hN : h = (ch.length : Int)
    · subst hN
      rw [if_pos rfl]
      unfold chainStore
      dsimp only
      rw [if_pos (by omega)]
      have htn : ((ch.length : Int)).toNat = ch.length := by omega
      rw [htn, List.getElem?_concat_length]
    · rw [if_neg (by simp [hN]), if_neg (by simp)]
      unfold chainStore
      dsimp only
      by_cases h0 : 0 ≤ h
      · rw [if_pos h0, if_pos h0]
        by_cases hlt : h.toNat < ch.length
        · rw [List.getElem?_append_left hlt]
        · have e1 : (ch[h.toNat]?) = none :=
            List.getElem?_eq_none_iff.mpr (by omega)
          have e2 : ((ch ++ [(sha, buf)])[h.toNat]?) = none := by
            refine List.getElem?_eq_none_iff.mpr ?_
            rw [List.length_append, List.length_singleton]
            omega
          rw [e1, e2]
      · rw [if_neg h0, if_neg h0]

theorem abs_paired (db : LevelDb) (ch : List (ShaHash × ByteSeq))
    (habs : Abs db ch) : Paired db := by
  obtain ⟨hstore, -, -, hnd, hbound⟩ := habs
  constructor
  · intro s data hdata
    rw [hstore] at hdata
    rw [hstore]
    unfold chainStore shaBlkToKey at hdata
    dsimp only at hdata
    cases hr : hashIdx s ch with
    | none => rw [hr] at hdata; exact absurd hdata (by simp)
    | some i =>
      rw [hr] at hdata
      simp only [Option.some_inj] at hdata
      subst hdata
      have hi : i < ch.length := hashIdx_lt s ch i hr
      refine ⟨(i : Int), decode_encode _ (by omega) (by omega), ?_⟩
      obtain ⟨rec, hrec⟩ := hashIdx_getElem s ch i hr
      refine ⟨rec, ?_⟩
      unfold chainStore int64ToKey
      dsimp only
      rw [if_pos (by omega)]
      have htn : (((i : Nat) : Int)).toNat = i := by omega
      rw [htn, hrec]
  · intro h v hv
    rw [hstore] at hv
    rw [hstore]
    unfold chainStore int64ToKey at hv
    dsimp only at hv
    by_cases h0 : 0 ≤ h
    · rw [if_pos h0] at hv
      cases hg : (ch[h.toNat]?) with
      | none => rw [hg] at hv; exact absurd hv (by simp)
      | some p =>
        rw [hg] at hv
        simp only [Option.some_inj] at hv
        refine ⟨p.1, p.2, hv.symm, ?_⟩
        have hidx : hashIdx p.1 ch = some h.toNat :=
          getElem_hashIdx p.1 ch h.toNat p.2 hnd (by rw [hg])
        unfold chainStore shaBlkToKey
        dsimp only
        rw [hidx]
        dsimp only
        have hcast : ((h.toNat : Nat) : Int) = h := by omega
        rw [hcast]
    · rw [if_neg h0] at hv
      exact absurd hv (by simp)

theorem abs_empty : Abs LevelDb.empty [] := by
  refine ⟨?_, rfl, by simp [LevelDb.empty], by simp, by norm_num⟩
  funext k
  cases k with
  | shaKey s => simp [LevelDb.empty, chainStore, hashIdx]
  | heightKey h => simp [LevelDb.empty, chainStore]

theorem abs_insert_commit (db : LevelDb) (ch : List (ShaHash × ByteSeq))
    (sha prevSha : ShaHash) (buf : ByteSeq) (habs : Abs db ch)
    (hfresh : sha ∉ ch.map Prod.fst)
    (hroom : (ch.length : Int) + 2 < 2 ^ 63)
    (hprev : ch = [] ∨ ∃ rec, (ch[ch.length - 1]?) = some (prevSha, rec)) :
    (insertBlockData db sha prevSha buf).1 = Except.ok (ch.length : Int) ∧
    Abs (commitBatch (insertBlockData db sha prevSha buf).2)
      (ch ++ [(sha, buf)]) := by
  obtain ⟨hstore, hbatch, hnext, hnd, hbound⟩ := habs
  have hins : insertBlockData db sha prevSha buf =
      insertTail db sha buf (ch.length : Int) := by
    cases hprev with
    | inl hnil =>
      subst hnil
      have hloc : getBlkLoc db prevSha = Except.error DbErr.notFound := by
        unfold getBlkLoc
        rw [hstore]
        simp [chainStore, hashIdx, shaBlkToKey]
      unfold insertBlockData
      rw [hloc]
      dsimp only
      rw [if_neg (by simp [hnext])]
      have h0 : wrap64 (-1 + 1) = 0 := by unfold wrap64; norm_num
      rw [h0]
      norm_num
    | inr hexists =>
      obtain ⟨rec, hrec⟩ := hexists
      have hlen1 : 1 ≤ ch.length := by
        have := getElem?_some_lt ch (ch.length - 1) (prevSha, rec) hrec
        omega
      have hidx : hashIdx prevSha ch = some (ch.length - 1) :=
        getElem_hashIdx prevSha ch (ch.length - 1) rec hnd hrec
      have hloc : getBlkLoc db prevSha =
          Except.ok ((ch.length - 1 : Nat) : Int) := by
        unfold getBlkLoc
        rw [hstore]
        unfold chainStore shaBlkToKey
        dsimp only
        rw [hidx]
        dsimp only
        rw [decode_encode _ (by omega) (by omega)]
      unfold insertBlockData
      rw [hloc]
      dsimp only
      have harg : wrap64 (((ch.length - 1 : Nat) : Int) + 1) =
          (ch.length : Int) := by
        have hc : ((ch.length - 1 : Nat) : Int) + 1 = (ch.length : Int) := by
          omega
        rw [hc]
        exact wrap64_eq_self _ (by omega) (by omega)
      rw [harg]
  have hbatch' : (insertTail db sha buf (ch.length : Int)).2.batch =
      [(shaBlkToKey sha, encodeInt64LE (ch.length : Int)),
       (int64ToKey (ch.length : Int), sha.val ++ buf)] := by
    simp only [insertTail, setBlk]
    rw [hbatch]
    rfl
  have hstore' : (insertTail db sha buf (ch.length : Int)).2.store =
      chainStore ch := by
    simp only [insertTail, setBlk]
    exact hstore
  rw [hins]
  constructor
  · rfl
  refine ⟨?_, rfl, ?_, ?_, ?_⟩
  · show applyBatch _ _ = _
    rw [hbatch', hstore']
    exact (chainStore_snoc ch sha buf hfresh).symm
  · show (insertTail db sha buf (ch.length : Int)).2.nextBlock = _
    simp only [insertTail, setBlk]
    have hw : wrap64 ((ch.length : Int) + 1) = (ch.length : Int) + 1 :=
      wrap64_eq_self _ (by omega) (by omega)
    rw [hw, List.length_append, List.length_singleton]
    push_cast
    ring
  · rw [List.map_append, List.nodup_append]
    refine ⟨hnd, by simp, ?_⟩
    intro a ha hb
    simp at hb
    subst hb
    exact hfresh ha
  · rw [List.length_append, List.length_singleton]
    push_cast
    push_cast at hroom
    omega

theorem insert_error_id (db : LevelDb) (sha prevSha : ShaHash)
    (buf : ByteSeq) (e : DbErr) (db' : LevelDb)
    (hins : insertBlockData db sha prevSha buf = (Except.error e, db')) :
    db' = db := by
  unfold insertBlockData at hins
  cases hloc : getBlkLoc db prevSha with
  | error e' =>
    rw [hloc] at hins
    dsimp only at hins
    by_cases hnb : db.nextBlock ≠ 0
    · rw [if_pos hnb] at hins
      exact (congrArg Prod.snd hins).symm
    · rw [if_neg hnb] at hins
      simp only [insertTail, setBlk, Prod.mk.injEq] at hins
      exact absurd hins.1 (by simp)
  | ok o =>
    rw [hloc] at hins
    dsimp only at hins
    simp only [insertTail, setBlk, Prod.mk.injEq] at hins
    exact absurd hins.1 (by simp)

/-- The two-block chain: genesis `mkHash 1`, then `mkHash 2` on top of it,
each insert committed. -/
def dbG2 : LevelDb :=
  commitBatch (insertBlockData dbG (mkHash 2) (mkHash 1) [20, 21]).2

/-- The two-block chain after a further insert whose declared predecessor is
the non-tip block `mkHash 1`: the new block `mkHash 3` is assigned height 1
again, overwriting the height-index entry of `mkHash 2`. -/
def dbFork : LevelDb :=
  commitBatch (insertBlockData dbG2 (mkHash 3) (mkHash 1) [30, 31]).2

/-- C4 (counterexample): a successful, committed insert whose predecessor is
not the current tip re-assigns an occupied height, after which a hash-index
entry (`mkHash 2 → 1`) exists whose height-index entry no longer carries its
hash — the committed pairing invariant is violated. -/
theorem pairing_broken_by_nontip_insert :
    (insertBlockData dbG2 (mkHash 3) (mkHash 1) [30, 31]).1 = Except.ok 1 ∧
    ¬ Paired dbFork := by
  refine ⟨rfl, ?_⟩
  intro hp
  obtain ⟨h, hdec, rec, hst⟩ := hp.1 (mkHash 2) (encodeInt64LE 1) rfl
  have h1 : decodeInt64LE (encodeInt64LE 1) = some 1 := by decide
  rw [h1] at hdec
  simp only [Option.some_inj] at hdec
  subst hdec
  have h2 : dbFork.store (int64ToKey 1) =
      some ((mkHash 3).val ++ [30, 31]) := rfl
  rw [h2] at hst
  simp only [Option.some_inj] at hst
  simp [mkHash] at hst

/-- C4 (amended): every successful insert stages exactly the two paired
writes — hash-index and height-index entry — into the same pending batch, and
along insert-then-commit sequences in which every insert extends the current
tip with a fresh hash (the single-chain discipline this layer is scoped to),
every committed state satisfies the two-way pairing invariant.  An insert
that re-uses an occupied height (non-tip predecessor) or an already-present
hash breaks the invariant, as the counterexample shows. -/
theorem insert_pairs_and_chain_paired :
    (∀ (db : LevelDb) (sha prevSha : ShaHash) (buf : ByteSeq) (h : Int)
        (db' : LevelDb),
      insertBlockData db sha prevSha buf = (Except.ok h, db') →
      db'.batch = db.batch ++
        [(shaBlkToKey sha, encodeInt64LE h),
         (int64ToKey h, sha.val ++ buf)]) ∧
    Abs LevelDb.empty [] ∧
    (∀ (db : LevelDb) (ch : List (ShaHash × ByteSeq)) (sha prevSha : ShaHash)
        (buf : ByteSeq), Abs db ch → sha ∉ ch.map Prod.fst →
      (ch.length : Int) + 2 < 2 ^ 63 →
      (ch = [] ∨ ∃ rec, (ch[ch.length - 1]?) = some (prevSha, rec)) →
      (insertBlockData db sha prevSha buf).1 = Except.ok (ch.length : Int) ∧
      Abs (commitBatch (insertBlockData db sha prevSha buf).2)
        (ch ++ [(sha, buf)])) ∧
    (∀ (db : LevelDb) (ch : List (ShaHash × ByteSeq)), Abs db ch → Paired db) :=
  ⟨fun db sha prevSha buf h db' hins =>
      (insert_success_shape db sha prevSha buf h db' hins).2.2.2.1,
    abs_empty,
    fun db ch sha prevSha buf habs hf hr hp =>
      abs_insert_commit db ch sha prevSha buf habs hf hr hp,
    fun db ch habs => abs_paired db ch habs⟩

/-- C4 (witness): the staging statement instantiated on the genesis insert
into the empty store. -/
theorem insert_pairs_and_chain_paired_witness :
    (insertBlockData LevelDb.empty (mkHash 1) zeroHash [10, 11]).2.batch =
      LevelDb.empty.batch ++
        [(shaBlkToKey (mkHash 1), encodeInt64LE 0),
         (int64ToKey 0, (mkHash 1).val ++ [10, 11])] :=
  insert_pairs_and_chain_paired.1 LevelDb.empty (mkHash 1) zeroHash [10, 11] 0
    (insertBlockData LevelDb.empty (mkHash 1) zeroHash [10, 11]).2 rfl

/-- C5 (counterexample): the committed sequence genesis, child of genesis,
then a second child of genesis (a public-operation sequence from the empty
store) mutates an existing height-index entry in place: height 1 first holds
the record of `mkHash 2` and afterwards the record of `mkHash 3`. -/
theorem height_entry_mutated_by_nontip_insert :
    dbG2.store (int64ToKey 1) = some ((mkHash 2).val ++ [20, 21]) ∧
    dbFork.store (int64ToKey 1) = some ((mkHash 3).val ++ [30, 31]) ∧
    ((mkHash 2).val ++ [20, 21] : ByteSeq) ≠ (mkHash 3).val ++ [30, 31] :=
  ⟨rfl, rfl, by decide⟩

/-- C5 (amended): reads create nothing (they do not touch the state at all in
this layer), and no operation ever deletes an entry — any key present before
an insert and commit is still present afterwards.  Under the single-chain
discipline (each insert extends the tip with a fresh hash) existing entries
are also never mutated: their values are preserved exactly.  An insert with a
non-tip predecessor or a duplicate hash, however, overwrites an existing
entry, as the counterexample shows. -/
theorem store_append_only :
    (∀ (db : LevelDb) (sha prevSha : ShaHash) (buf : ByteSeq) (k : Key)
        (v : ByteSeq), db.store k = some v →
      ∃ v', (commitBatch (insertBlockData db sha prevSha buf).2).store k =
        some v') ∧
    (∀ (db : LevelDb) (ch : List (ShaHash × ByteSeq)) (sha prevSha : ShaHash)
        (buf : ByteSeq) (k : Key) (v : ByteSeq), Abs db ch →
      sha ∉ ch.map Prod.fst → (ch.length : Int) + 2 < 2 ^ 63 →
      (ch = [] ∨ ∃ rec, (ch[ch.length - 1]?) = some (prevSha, rec)) →
      db.store k = some v →
      (commitBatch (insertBlockData db sha prevSha buf).2).store k =
        some v) := by
  constructor
  · intro db sha prevSha buf k v hv
    rcases hres : insertBlockData db sha prevSha buf with ⟨r, db'⟩
    cases r with
    | error e =>
      have hid := insert_error_id db sha prevSha buf e db' hres
      rw [hid]
      exact applyBatch_preserves_presence db.batch db.store k v hv
    | ok h =>
      obtain ⟨-, -, hstore, hbatch, -⟩ :=
        insert_success_shape db sha prevSha buf h db' hres
      show ∃ v', applyBatch db'.batch db'.store k = some v'
      rw [hbatch, hstore]
      exact applyBatch_preserves_presence _ db.store k v hv
  · intro db ch sha prevSha buf k v habs hfresh hroom hprev hv
    obtain ⟨-, habs'⟩ :=
      abs_insert_commit db ch sha prevSha buf habs hfresh hroom hprev
    obtain ⟨hstore', -, -, -, -⟩ := habs'
    rw [hstore']
    obtain ⟨hstore, -, -, -, -⟩ := habs
    rw [hstore] at hv
    rw [chainStore_snoc ch sha buf hfresh]
    simp only [applyBatch]
    have hnoneN : chainStore ch (int64ToKey (ch.length : Int)) = none := by
      unfold chainStore int64ToKey
      dsimp only
      rw [if_pos (by omega)]
      have htn : ((ch.length : Int)).toNat = ch.length := by omega
      rw [htn, List.getElem?_eq_none_iff.mpr (le_refl _)]
    have hnoneS : chainStore ch (shaBlkToKey sha) = none := by
      unfold chainStore shaBlkToKey
      dsimp only
      rw [(hashIdx_none_iff sha ch).mpr hfresh]
    have hk1 : ¬ k = int64ToKey (ch.length : Int) := by
      intro he
      rw [he, hnoneN] at hv
      exact absurd hv (by simp)
    have hk2 : ¬ k = shaBlkToKey sha := by
      intro he
      rw [he, hnoneS] at hv
      exact absurd hv (by simp)
    rw [if_neg hk1, if_neg hk2]
    exact hv

/-- C5 (witness): presence preservation instantiated on the one-block store
and a tip-extending insert. -/
theorem store_append_only_witness :
    ∃ v', (commitBatch
        (insertBlockData dbG (mkHash 2) (mkHash 1) [20, 21]).2).store
        (int64ToKey 0) = some v' :=
  store_append_only.1 dbG (mkHash 2) (mkHash 1) [20, 21] (int64ToKey 0)
    ((mkHash 1).val ++ [10, 11]) rfl

/-! ### Range fetch semantics -/

/-- The effective exclusive end of a range request: the `AllShas` sentinel
requests `startHeight + 500` (Go `int64` addition). -/
def effEnd (startHeight endHeight : Int) : Int :=
  if endHeight = AllShas then wrap64 (startHeight + 500) else endHeight

/-- Well-formedness of the height-index namespace: every height-index payload
carries at least the fixed 32-byte hash region — as every payload staged by
`setBlk` (`hash ++ record`) does. -/
def HeightsWF (db : LevelDb) : Prop :=
  ∀ (h : Int) (v : ByteSeq), db.store (int64ToKey h) = some v → 32 ≤ v.length

theorem rangeLoop_spec (db : LevelDb) (hwf : HeightsWF db) :
    ∀ (n : Nat) (start : Int),
    ∃ l, rangeLoop db n start = Except.ok l ∧ l.length ≤ n ∧
      (∀ i : Nat, i < l.length →
        ∃ v, db.store (int64ToKey (start + (i : Int))) = some v ∧
          ∃ s : ShaHash, (l[i]?) = some s ∧ s.val = v.take 32) ∧
      (l.length < n →
        db.store (int64ToKey (start + (l.length : Int))) = none) := by
  intro n
  induction n with
  | zero =>
    intro start
    exact ⟨[], rfl, by simp, by simp, by simp⟩
  | succ m ih =>
    intro start
    cases hst : db.store (int64ToKey start) with
    | none =>
      refine ⟨[], ?_, by simp, by simp, ?_⟩
      · unfold rangeLoop
        rw [hst]
      · intro hlt
        simpa using hst
    | some blkVal =>
      have h32 : 32 ≤ blkVal.length := hwf start blkVal hst
      obtain ⟨rest, hrest, hlen, hidx, hgap⟩ := ih (start + 1)
      refine ⟨⟨blkVal.take 32, by simp [List.length_take]; omega⟩ :: rest,
        ?_, ?_, ?_, ?_⟩
      · unfold rangeLoop
        rw [hst]
        dsimp only
        rw [dif_pos h32, hrest]
      · simp
        omega
      · intro i hi
        cases i with
        | zero =>
          refine ⟨blkVal, by simpa using hst,
            ⟨blkVal.take 32, by simp [List.length_take]; omega⟩, by simp, rfl⟩
        | succ j =>
          simp only [List.length_cons] at hi
          obtain ⟨v, hv, s, hs, hsv⟩ := hidx j (by omega)
          refine ⟨v, ?_, s, by simpa using hs, hsv⟩
          have hc : start + ((j + 1 : Nat) : Int) = (start + 1) + (j : Int) := by
            push_cast
            ring
          rw [hc]
          exact hv
      · intro hlt
        simp only [List.length_cons] at hlt
        have hg := hgap (by omega)
        have hc : start + ((rest.length + 1 : Nat) : Int) =
            (start + 1) + (rest.length : Int) := by
          push_cast
          ring
        rw [List.length_cons, hc]
        exact hg

/-- C8 (counterexample): an ordinary range request with `end < start` — here
`range(5, 3)` on the empty store — does not return the (empty) prefix without
error as the claim states: the capacity `endidx - startHeight` of the slice
allocation is negative, so the Go `make` call panics at runtime, modelled as
the `outOfBounds` failure. -/
theorem fetchHeightRange_negative_capacity_panics :
    FetchHeightRange LevelDb.empty 5 3 = Except.error DbErr.outOfBounds ∧
    (Except.error DbErr.outOfBounds ≠
      (Except.ok [] : Except DbErr (List ShaHash))) :=
  ⟨rfl, fun h => Except.noConfusion h⟩

/-- C8 (amended): whenever the `int64` capacity `effEnd - startHeight` of the
slice allocation is non-negative — in particular for every request with
`startHeight ≤ endHeight`, and always under the `AllShas` open end for an
`int64` start, where the capacity is exactly 500 — `FetchHeightRange` on a
store with well-formed height-index payloads never fails: it returns, in
order, the hash prefixes of the consecutive height entries from
`startHeight`, stops — without error — at the first missing height (so at a
gap it returns exactly the prefix found, empty if `startHeight` itself is
absent), returns at most `effEnd - startHeight` entries (at most 500 under
`AllShas`), and the empty range `(0, 0)` yields the empty sequence on any
store.  When the capacity is negative (`endHeight < startHeight`), the
allocation panics instead of returning. -/
theorem fetchHeightRange_semantics :
    (∀ (db : LevelDb) (startHeight endHeight : Int), HeightsWF db →
      0 ≤ wrap64 (effEnd startHeight endHeight - startHeight) →
      ∃ l, FetchHeightRange db startHeight endHeight = Except.ok l ∧
        (∀ i : Nat, i < l.length →
          ∃ v, db.store (int64ToKey (startHeight + (i : Int))) = some v ∧
            ∃ s : ShaHash, (l[i]?) = some s ∧ s.val = v.take 32) ∧
        ((l.length : Int) < effEnd startHeight endHeight - startHeight →
          db.store (int64ToKey (startHeight + (l.length : Int))) = none) ∧
        l.length ≤ (effEnd startHeight endHeight - startHeight).toNat ∧
        (endHeight = AllShas → -2 ^ 63 ≤ startHeight → l.length ≤ 500)) ∧
    (∀ (db : LevelDb) (startHeight endHeight : Int),
      wrap64 (effEnd startHeight endHeight - startHeight) < 0 →
      FetchHeightRange db startHeight endHeight =
        Except.error DbErr.outOfBounds) ∧
    (∀ startHeight : Int, -2 ^ 63 ≤ startHeight → startHeight < 2 ^ 63 →
      wrap64 (effEnd startHeight AllShas - startHeight) = 500) ∧
    (∀ db : LevelDb, FetchHeightRange db 0 0 = Except.ok []) := by
  refine ⟨?_, ?_, ?_, ?_⟩
  · intro db startHeight endHeight hwf hcap
    obtain ⟨l, hl, hlen, hidx, hgap⟩ := rangeLoop_spec db hwf
      (effEnd startHeight endHeight - startHeight).toNat startHeight
    have hfetch : FetchHeightRange db startHeight endHeight =
        rangeLoop db (effEnd startHeight endHeight - startHeight).toNat
          startHeight := by
      unfold FetchHeightRange
      show (if wrap64 (effEnd startHeight endHeight - startHeight) < 0 then
          Except.error DbErr.outOfBounds
        else rangeLoop db (effEnd startHeight endHeight - startHeight).toNat
          startHeight) = _
      rw [if_neg (not_lt.mpr hcap)]
    refine ⟨l, by rw [hfetch]; exact hl, hidx, ?_, hlen, ?_⟩
    · intro hlt
      exact hgap (by omega)
    · intro hAll hge
      have hb : effEnd startHeight endHeight - startHeight ≤ 500 := by
        unfold effEnd
        rw [if_pos hAll]
        unfold wrap64
        omega
      omega
  · intro db startHeight endHeight hcap
    unfold FetchHeightRange
    show (if wrap64 (effEnd startHeight endHeight - startHeight) < 0 then
        Except.error DbErr.outOfBounds
      else rangeLoop db (effEnd startHeight endHeight - startHeight).toNat
        startHeight) = _
    rw [if_pos hcap]
  · intro startHeight hge hlt
    unfold effEnd
    rw [if_pos rfl]
    unfold wrap64
    omega
  · intro db
    rfl

/-- A store with a single, well-formed height-index entry at height 0,
used to instantiate the range-fetch statement. -/
def dbH : LevelDb :=
  { LevelDb.empty with
    store := fun k =>
      if k = int64ToKey 0 then some ((mkHash 5).val ++ [7, 8]) else none }

theorem heightsWF_dbH : HeightsWF dbH := by
  intro h v hst
  unfold dbH at hst
  dsimp only at hst
  split at hst
  · simp only [Option.some_inj] at hst
    subst hst
    simp [mkHash]
  · exact absurd hst (by simp)

/-- C8 (witness): the range-fetch statement instantiated on the one-entry
store `dbH` with the `AllShas` open end, where the slice capacity is 500 and
hence non-negative. -/
theorem fetchHeightRange_semantics_witness :
    ∃ l, FetchHeightRange dbH 0 AllShas = Except.ok l ∧
      (∀ i : Nat, i < l.length →
        ∃ v, dbH.store (int64ToKey (0 + (i : Int))) = some v ∧
          ∃ s : ShaHash, (l[i]?) = some s ∧ s.val = v.take 32) ∧
      ((l.length : Int) < effEnd 0 AllShas - 0 →
        dbH.store (int64ToKey (0 + (l.length : Int))) = none) ∧
      l.length ≤ (effEnd 0 AllShas - 0).toNat ∧
      (AllShas = AllShas → -2 ^ 63 ≤ (0 : Int) → l.length ≤ 500) :=
  fetchHeightRange_semantics.1 dbH 0 AllShas heightsWF_dbH (by decide)
